import Mathlib

/-!
Verification of the binomial-lattice option pricing engine and the
finite-difference Black-Scholes solver of the Derivatives-Pricing-Models
repository.

The binomial engine (`find_dt_u_d`, `produce_tree`, `payoff`,
`find_euro_option_value`, `find_amer_option_value`) is embedded over `ℝ`,
modelling Python floats as real numbers.  Fallible behaviour is modelled
with `Option`: a Python exception (ZeroDivisionError when `steps = 0`,
TypeError when an unrecognized `option_type` makes `payoff` return `None`
and the induction then adds `None`s) is modelled as `none`.

The finite-difference derivative estimators of `BlackScholes.py`
(`find_dVdS`, `find_d2VdS2`, `find_dVdt`) involve only field arithmetic,
so they are embedded over `ℚ` to keep them executable.
-/

namespace Binomial

noncomputable section

/-- The set of contract kinds the source's `payoff` dispatch recognizes. -/
def recognized (k : String) : Prop :=
  k = "call" ∨ k = "put" ∨ k = "cash_or_nothing_call" ∨ k = "cash_or_nothing_put"

/-- Embedding of `payoff(S, E, option_type)` (part_000, lines 257-281).
Each branch mirrors the source's `if (S-E) > 0` / `if (E-S) > 0` tests.
A Python function that falls through every branch returns `None`; that is
the `none` case for an unrecognized `option_type`. -/
def payoff (S E : ℝ) (option_type : String) : Option ℝ :=
  if option_type = "call" then
    some (if S - E > 0 then S - E else 0)
  else if option_type = "put" then
    some (if E - S > 0 then E - S else 0)
  else if option_type = "cash_or_nothing_call" then
    some (if S - E > 0 then 10 else 0)
  else if option_type = "cash_or_nothing_put" then
    some (if E - S > 0 then 10 else 0)
  else
    none

/-- The numeric value of `payoff` on a recognized kind (0 on an unrecognized
one); `payoff_eq_payoffFn` ties it to the faithful `payoff`. -/
def payoffFn (S E : ℝ) (option_type : String) : ℝ :=
  if option_type = "call" then (if S - E > 0 then S - E else 0)
  else if option_type = "put" then (if E - S > 0 then E - S else 0)
  else if option_type = "cash_or_nothing_call" then (if S - E > 0 then 10 else 0)
  else if option_type = "cash_or_nothing_put" then (if E - S > 0 then 10 else 0)
  else 0

theorem payoff_eq_payoffFn {k : String} (hk : recognized k) (S E : ℝ) :
    payoff S E k = some (payoffFn S E k) := by
  rcases hk with h | h | h | h <;> subst h <;> simp [payoff, payoffFn]

theorem payoff_unrecognized {k : String} (hk : ¬ recognized k) (S E : ℝ) :
    payoff S E k = none := by
  rw [recognized] at hk
  push_neg at hk
  obtain ⟨h1, h2, h3, h4⟩ := hk
  simp [payoff, h1, h2, h3, h4]

theorem payoffFn_nonneg (S E : ℝ) (k : String) : 0 ≤ payoffFn S E k := by
  unfold payoffFn
  split_ifs <;> linarith

/-- Embedding of `find_dt_u_d(r, sigma, T, steps)` (part_000, lines 196-202).
In Python `dt = T/steps` raises ZeroDivisionError when `steps = 0`; that is
the `none` case.  Otherwise `A = exp(sigma**2 * dt) - 1`, `B = exp(r*dt)`,
`u = B*(1+sqrt(A))`, `d = B*(1-sqrt(A))`.  (For `T ≥ 0` we have `A ≥ 0`, so
`np.sqrt` is a genuine square root, matching `Real.sqrt`.) -/
def find_dt_u_d (r sigma T : ℝ) (steps : ℕ) : Option (ℝ × ℝ × ℝ) :=
  if steps = 0 then none
  else
    let dt := T / steps
    let A := Real.exp (sigma ^ 2 * dt) - 1
    let B := Real.exp (r * dt)
    some (dt, B * (1 + Real.sqrt A), B * (1 - Real.sqrt A))

/-- Row `i` of the price tree: entries `S_0 * u^j * d^(i-j)` for `j ∈ [0, i]`
(part_000, line 212, the inner loop of `produce_tree`). -/
def treeRow (S_0 u d : ℝ) (i : ℕ) : List ℝ :=
  (List.range (i + 1)).map (fun j => S_0 * u ^ j * d ^ (i - j))

/-- Embedding of `produce_tree(S_0, r, sigma, T, steps)` (part_000,
lines 206-215): `steps+1` rows, row `i` holding `i+1` prices. -/
def produce_tree (S_0 r sigma T : ℝ) (steps : ℕ) : Option (List (List ℝ)) :=
  match find_dt_u_d r sigma T steps with
  | none => none
  | some (_, u, d) => some ((List.range (steps + 1)).map (treeRow S_0 u d))

/-- The terminal payoff row: `payoff` applied to each entry of the final
tree row (part_000, lines 289-292 / 311-314).  If `payoff` yields `None`
(unrecognized kind), the later arithmetic on the row raises in Python;
modelled by the whole row becoming `none`. -/
def payoffRowOf (E : ℝ) (k : String) : List ℝ → Option (List ℝ)
  | [] => some []
  | v :: rest =>
    match payoff v E k, payoffRowOf E k rest with
    | some p, some ps => some (p :: ps)
    | _, _ => none

/-- One backward-induction step of the European recursion: Python's
`new_row[j] = discount*0.5*(payoff_row[j] + payoff_row[j+1])` for
`j ∈ [0, len-2]` (part_000, lines 296-299). -/
def backstep (discount : ℝ) : List ℝ → List ℝ
  | a :: b :: rest => discount * 0.5 * (a + b) :: backstep discount (b :: rest)
  | _ => []

/-- Embedding of `find_euro_option_value` (part_000, lines 284-302):
build the tree, take its last row, apply `payoff`, then apply `steps`
backward-induction steps and return the single remaining entry. -/
def find_euro_option_value (S_0 r sigma T : ℝ) (steps : ℕ) (E : ℝ)
    (option_type : String) : Option ℝ :=
  match find_dt_u_d r sigma T steps with
  | none => none
  | some (dt, u, d) =>
    let tree := (List.range (steps + 1)).map (treeRow S_0 u d)
    let final_row := tree.getD (tree.length - 1) []
    match payoffRowOf E option_type final_row with
    | none => none
    | some payoff_row =>
      let discount := Real.exp (-(r * dt))
      some (((backstep discount)^[steps] payoff_row).getD 0 0)

/-- One backward-induction step of the American recursion (part_000,
lines 319-332): the first list is the tree row of the level being filled,
the second the value row of the level above; each new entry is
`max(hold_value, exercise_value)`. -/
def amerRowStep (discount E : ℝ) (k : String) : List ℝ → List ℝ → List ℝ
  | t :: ts, a :: b :: rest =>
      max (discount * 0.5 * (a + b)) (payoffFn t E k) ::
        amerRowStep discount E k ts (b :: rest)
  | _, _ => []

/-- The American value row after `m` backward steps, starting from `row0`
(the terminal payoff row).  Step `m+1` fills level `N - (m+1)` using the
tree row of that level: Python's `tree[(tree_len-2)-i]` at outer iteration
`i = m` is `treeRow S_0 u d (N - (m+1))`. -/
def amerIterFrom (discount S_0 u d E : ℝ) (k : String) (N : ℕ)
    (row0 : List ℝ) : ℕ → List ℝ
  | 0 => row0
  | m + 1 =>
      amerRowStep discount E k (treeRow S_0 u d (N - (m + 1)))
        (amerIterFrom discount S_0 u d E k N row0 m)

/-- Embedding of `find_amer_option_value` (part_000, lines 306-334).
The Python variable `exercise` is overwritten at every node; its value on
return is the one assigned at the last iteration (outer `i = steps-1`,
inner `j = 0`), i.e. the root-node comparison
`exercise_value > hold_value`, where `hold_value` is formed from the
level-1 value row (the row after `steps - 1` backward steps) and
`exercise_value = payoff(tree[0][0])`.  The returned pair is modelled
directly from those quantities. -/
def find_amer_option_value (S_0 r sigma T : ℝ) (steps : ℕ) (E : ℝ)
    (option_type : String) : Option (ℝ × Bool) :=
  match find_dt_u_d r sigma T steps with
  | none => none
  | some (dt, u, d) =>
    let tree := (List.range (steps + 1)).map (treeRow S_0 u d)
    let final_row := tree.getD (tree.length - 1) []
    match payoffRowOf E option_type final_row with
    | none => none
    | some payoff_row =>
      let discount := Real.exp (-(r * dt))
      let final := amerIterFrom discount S_0 u d E option_type steps payoff_row steps
      let prev := amerIterFrom discount S_0 u d E option_type steps payoff_row (steps - 1)
      let hold_root := discount * 0.5 * (prev.getD 0 0 + prev.getD 1 0)
      let ex_root := payoffFn ((treeRow S_0 u d 0).getD 0 0) E option_type
      some (final.getD 0 0, decide (ex_root > hold_root))

/-- The value of the European backward induction, indexed by the number of
steps `m` remaining below level `N`: `euroVAux m j` is the value at level
`N - m`, index `j`.  Level `N` (`m = 0`) holds the terminal payoffs; each
earlier value is the discounted half-sum of its two successors. -/
def euroVAux (discount S_0 u d E : ℝ) (k : String) (N : ℕ) : ℕ → ℕ → ℝ
  | 0, j => payoffFn (S_0 * u ^ j * d ^ (N - j)) E k
  | m + 1, j =>
      discount * 0.5 *
        (euroVAux discount S_0 u d E k N m j + euroVAux discount S_0 u d E k N m (j + 1))

/-- The value of the American backward induction in the same fuel
indexing; each non-terminal value is the maximum of the hold value and the
exercise value `payoff(S_0 * u^j * d^(i-j))` at its level `i = N-(m+1)`. -/
def amerVAux (discount S_0 u d E : ℝ) (k : String) (N : ℕ) : ℕ → ℕ → ℝ
  | 0, j => payoffFn (S_0 * u ^ j * d ^ (N - j)) E k
  | m + 1, j =>
      max (discount * 0.5 *
            (amerVAux discount S_0 u d E k N m j + amerVAux discount S_0 u d E k N m (j + 1)))
        (payoffFn (S_0 * u ^ j * d ^ (N - (m + 1) - j)) E k)

/-- European node value in (level, index) coordinates: `V i j` for
`0 ≤ j ≤ i ≤ N`. -/
def euroV (discount S_0 u d E : ℝ) (k : String) (N i j : ℕ) : ℝ :=
  euroVAux discount S_0 u d E k N (N - i) j

/-- American node value in (level, index) coordinates. -/
def amerV (discount S_0 u d E : ℝ) (k : String) (N i j : ℕ) : ℝ :=
  amerVAux discount S_0 u d E k N (N - i) j

theorem getD_map_range {α : Type*} (f : ℕ → α) (dflt : α) (n i : ℕ) (h : i < n + 1) :
    ((List.range (n + 1)).map f).getD i dflt = f i := by
  rw [List.getD_eq_getElem _ _ (by simpa using h)]
  simp

theorem payoffRowOf_map {k : String} (hk : recognized k) (E : ℝ) (l : List ℝ) :
    payoffRowOf E k l = some (l.map fun v => payoffFn v E k) := by
  induction l with
  | nil => rfl
  | cons v rest ih => simp [payoffRowOf, payoff_eq_payoffFn hk, ih]

theorem payoffRowOf_none {k : String} (hk : ¬ recognized k) (E : ℝ) (v : ℝ)
    (l : List ℝ) : payoffRowOf E k (v :: l) = none := by
  simp [payoffRowOf, payoff_unrecognized hk]

theorem backstep_map (c : ℝ) (n : ℕ) (f : ℕ → ℝ) :
    backstep c ((List.range (n + 1)).map f) =
      (List.range n).map fun j => c * 0.5 * (f j + f (j + 1)) := by
  induction n generalizing f with
  | zero => simp [backstep]
  | succ n ih =>
    have h1 : ∀ (g : ℕ → ℝ) (m : ℕ), (List.range (m + 1)).map g =
        g 0 :: (List.range m).map fun j => g (j + 1) := by
      intro g m
      rw [List.range_succ_eq_map]
      simp [Function.comp_def]
    rw [h1 f (n + 1), h1 (fun j => f (j + 1)) n, backstep,
      ← h1 (fun j => f (j + 1)) n, ih fun j => f (j + 1),
      h1 (fun j => c * 0.5 * (f j + f (j + 1))) n]

theorem euro_iterate (c S_0 u d E : ℝ) (k : String) (N : ℕ) :
    ∀ m, m ≤ N →
      (backstep c)^[m] ((List.range (N + 1)).map (euroVAux c S_0 u d E k N 0)) =
        (List.range (N + 1 - m)).map (euroVAux c S_0 u d E k N m) := by
  intro m
  induction m with
  | zero => intro _; simp
  | succ m ih =>
    intro hm
    rw [Function.iterate_succ_apply', ih (by omega)]
    have hrw : N + 1 - m = (N - (m + 1)) + 1 + 1 := by omega
    rw [hrw, backstep_map]
    have hrw2 : N + 1 - (m + 1) = (N - (m + 1)) + 1 := by omega
    rw [hrw2]
    congr 1

theorem amerRowStep_map (c E : ℝ) (k : String) (n : ℕ) (g f : ℕ → ℝ) :
    amerRowStep c E k ((List.range (n + 1)).map g) ((List.range (n + 1 + 1)).map f) =
      (List.range (n + 1)).map fun j =>
        max (c * 0.5 * (f j + f (j + 1))) (payoffFn (g j) E k) := by
  induction n generalizing f g with
  | zero => simp [amerRowStep, List.range_succ_eq_map]
  | succ n ih =>
    have h1 : ∀ (q : ℕ → ℝ) (m : ℕ), (List.range (m + 1)).map q =
        q 0 :: (List.range m).map fun j => q (j + 1) := by
      intro q m
      rw [List.range_succ_eq_map]
      simp [Function.comp_def]
    rw [h1 g (n + 1), h1 f (n + 2), h1 (fun j => f (j + 1)) (n + 1), amerRowStep,
      ← h1 (fun j => f (j + 1)) (n + 1), ih (fun j => g (j + 1)) fun j => f (j + 1),
      h1 (fun j => max (c * 0.5 * (f j + f (j + 1))) (payoffFn (g j) E k)) (n + 1)]

theorem amer_iterate (c S_0 u d E : ℝ) (k : String) (N : ℕ) :
    ∀ m, m ≤ N →
      amerIterFrom c S_0 u d E k N
          ((List.range (N + 1)).map (amerVAux c S_0 u d E k N 0)) m =
        (List.range (N + 1 - m)).map (amerVAux c S_0 u d E k N m) := by
  intro m
  induction m with
  | zero => intro _; simp [amerIterFrom]
  | succ m ih =>
    intro hm
    rw [amerIterFrom, ih (by omega)]
    have hg : treeRow S_0 u d (N - (m + 1)) =
        (List.range ((N - (m + 1)) + 1)).map fun j =>
          S_0 * u ^ j * d ^ (N - (m + 1) - j) := rfl
    have hrw : N + 1 - m = (N - (m + 1)) + 1 + 1 := by omega
    rw [hg, hrw, amerRowStep_map]
    have hrw2 : N + 1 - (m + 1) = (N - (m + 1)) + 1 := by omega
    rw [hrw2]
    congr 1

theorem terminal_row_eq (c S_0 u d E : ℝ) (k : String) (N : ℕ) :
    ((treeRow S_0 u d N).map fun v => payoffFn v E k) =
      (List.range (N + 1)).map (euroVAux c S_0 u d E k N 0) := by
  unfold treeRow
  rw [List.map_map]
  rfl

theorem terminal_row_eq_amer (c S_0 u d E : ℝ) (k : String) (N : ℕ) :
    ((treeRow S_0 u d N).map fun v => payoffFn v E k) =
      (List.range (N + 1)).map (amerVAux c S_0 u d E k N 0) := by
  unfold treeRow
  rw [List.map_map]
  rfl

theorem find_euro_eq (S_0 r sigma T E dt u d : ℝ) (N : ℕ) (k : String)
    (hk : recognized k)
    (h : find_dt_u_d r sigma T N = some (dt, u, d)) :
    find_euro_option_value S_0 r sigma T N E k =
      some (euroVAux (Real.exp (-(r * dt))) S_0 u d E k N N 0) := by
  unfold find_euro_option_value
  rw [h]
  dsimp only
  have hlen : ((List.range (N + 1)).map (treeRow S_0 u d)).length - 1 = N := by
    simp
  rw [hlen, getD_map_range _ _ _ _ (by omega), payoffRowOf_map hk,
    terminal_row_eq (Real.exp (-(r * dt))) S_0 u d E k N]
  dsimp only
  rw [euro_iterate _ S_0 u d E k N N le_rfl]
  have h1 : N + 1 - N = 1 := by omega
  have hr1 : List.range 1 = [0] := rfl
  rw [h1, hr1]
  rfl

theorem find_amer_eq (S_0 r sigma T E dt u d : ℝ) (N : ℕ) (k : String)
    (hN : N ≠ 0) (hk : recognized k)
    (h : find_dt_u_d r sigma T N = some (dt, u, d)) :
    find_amer_option_value S_0 r sigma T N E k =
      some (amerVAux (Real.exp (-(r * dt))) S_0 u d E k N N 0,
        decide (payoffFn (S_0 * u ^ (0 : ℕ) * d ^ (0 : ℕ)) E k >
          Real.exp (-(r * dt)) * 0.5 *
            (amerVAux (Real.exp (-(r * dt))) S_0 u d E k N (N - 1) 0 +
              amerVAux (Real.exp (-(r * dt))) S_0 u d E k N (N - 1) 1))) := by
  unfold find_amer_option_value
  rw [h]
  dsimp only
  have hlen : ((List.range (N + 1)).map (treeRow S_0 u d)).length - 1 = N := by
    simp
  rw [hlen, getD_map_range _ _ _ _ (by omega), payoffRowOf_map hk,
    terminal_row_eq_amer (Real.exp (-(r * dt))) S_0 u d E k N]
  dsimp only
  rw [amer_iterate _ S_0 u d E k N N le_rfl,
    amer_iterate _ S_0 u d E k N (N - 1) (by omega)]
  have h1 : N + 1 - N = 1 := by omega
  have h2 : N + 1 - (N - 1) = 2 := by omega
  have hr1 : List.range 1 = [0] := rfl
  have hr2 : List.range 2 = [0, 1] := rfl
  rw [h1, h2, hr1, hr2]
  have htr : (treeRow S_0 u d 0).getD 0 0 = S_0 * u ^ (0 : ℕ) * d ^ ((0 : ℕ) - 0) := rfl
  rw [htr]
  rfl

theorem euroVAux_le_amerVAux (c S_0 u d E : ℝ) (k : String) (N : ℕ)
    (hc : 0 ≤ c) :
    ∀ m j, euroVAux c S_0 u d E k N m j ≤ amerVAux c S_0 u d E k N m j := by
  intro m
  induction m with
  | zero => intro j; exact le_refl _
  | succ m ih =>
    intro j
    refine le_trans ?_ (le_max_left _ _)
    simp only [euroVAux]
    have h5 : (0:ℝ) ≤ c * 0.5 := by linarith
    exact mul_le_mul_of_nonneg_left (add_le_add (ih j) (ih (j + 1))) h5

theorem euroVAux_nonneg (c S_0 u d E : ℝ) (k : String) (N : ℕ) (hc : 0 ≤ c) :
    ∀ m j, 0 ≤ euroVAux c S_0 u d E k N m j := by
  intro m
  induction m with
  | zero => intro j; exact payoffFn_nonneg _ _ _
  | succ m ih =>
    intro j
    simp only [euroVAux]
    have h5 : (0:ℝ) ≤ c * 0.5 := by linarith
    exact mul_nonneg h5 (add_nonneg (ih j) (ih (j + 1)))

theorem find_dt_u_d_T_zero (r sigma : ℝ) (N : ℕ) (hN : N ≠ 0) :
    find_dt_u_d r sigma 0 N = some (0, 1, 1) := by
  simp [find_dt_u_d, hN]

theorem find_dt_u_d_eq (r sigma T : ℝ) (N : ℕ) (hN : N ≠ 0) :
    find_dt_u_d r sigma T N =
      some (T / N,
        Real.exp (r * (T / N)) * (1 + Real.sqrt (Real.exp (sigma ^ 2 * (T / N)) - 1)),
        Real.exp (r * (T / N)) * (1 - Real.sqrt (Real.exp (sigma ^ 2 * (T / N)) - 1))) := by
  simp [find_dt_u_d, hN]

theorem treeRow_cons (S_0 u d : ℝ) (N : ℕ) :
    ∃ a l, treeRow S_0 u d N = a :: l := by
  unfold treeRow
  rw [List.range_succ_eq_map]
  exact ⟨_, _, rfl⟩

theorem find_euro_unrecognized {k : String} (hk : ¬ recognized k)
    (S_0 r sigma T E : ℝ) (N : ℕ) :
    find_euro_option_value S_0 r sigma T N E k = none := by
  by_cases hN : N = 0
  · subst hN
    simp [find_euro_option_value, find_dt_u_d]
  · unfold find_euro_option_value
    rw [find_dt_u_d_eq r sigma T N hN]
    dsimp only
    have hlen : ((List.range (N + 1)).map
        (treeRow S_0
          (Real.exp (r * (T / N)) * (1 + Real.sqrt (Real.exp (sigma ^ 2 * (T / N)) - 1)))
          (Real.exp (r * (T / N)) * (1 - Real.sqrt (Real.exp (sigma ^ 2 * (T / N)) - 1))))).length
        - 1 = N := by simp
    rw [hlen, getD_map_range _ _ _ _ (by omega)]
    obtain ⟨a, l, hal⟩ := treeRow_cons S_0
      (Real.exp (r * (T / N)) * (1 + Real.sqrt (Real.exp (sigma ^ 2 * (T / N)) - 1)))
      (Real.exp (r * (T / N)) * (1 - Real.sqrt (Real.exp (sigma ^ 2 * (T / N)) - 1))) N
    rw [hal, payoffRowOf_none hk]

theorem find_amer_unrecognized {k : String} (hk : ¬ recognized k)
    (S_0 r sigma T E : ℝ) (N : ℕ) :
    find_amer_option_value S_0 r sigma T N E k = none := by
  by_cases hN : N = 0
  · subst hN
    simp [find_amer_option_value, find_dt_u_d]
  · unfold find_amer_option_value
    rw [find_dt_u_d_eq r sigma T N hN]
    dsimp only
    have hlen : ((List.range (N + 1)).map
        (treeRow S_0
          (Real.exp (r * (T / N)) * (1 + Real.sqrt (Real.exp (sigma ^ 2 * (T / N)) - 1)))
          (Real.exp (r * (T / N)) * (1 - Real.sqrt (Real.exp (sigma ^ 2 * (T / N)) - 1))))).length
        - 1 = N := by simp
    rw [hlen, getD_map_range _ _ _ _ (by omega)]
    obtain ⟨a, l, hal⟩ := treeRow_cons S_0
      (Real.exp (r * (T / N)) * (1 + Real.sqrt (Real.exp (sigma ^ 2 * (T / N)) - 1)))
      (Real.exp (r * (T / N)) * (1 - Real.sqrt (Real.exp (sigma ^ 2 * (T / N)) - 1))) N
    rw [hal, payoffRowOf_none hk]

theorem euroVAux_const (S_0 E : ℝ) (k : String) (N : ℕ) :
    ∀ m j, euroVAux 1 S_0 1 1 E k N m j = payoffFn S_0 E k := by
  intro m
  induction m with
  | zero => intro j; simp [euroVAux]
  | succ m ih =>
    intro j
    simp only [euroVAux, ih]
    ring

theorem amerVAux_const (S_0 E : ℝ) (k : String) (N : ℕ) :
    ∀ m j, amerVAux 1 S_0 1 1 E k N m j = payoffFn S_0 E k := by
  intro m
  induction m with
  | zero => intro j; simp [amerVAux]
  | succ m ih =>
    intro j
    simp only [amerVAux, ih, one_pow, mul_one]
    rw [max_eq_left (by linarith)]
    ring

theorem payoffFn_call_sub_put (S E : ℝ) :
    payoffFn S E "call" - payoffFn S E "put" = S - E := by
  simp only [payoffFn]
  simp only [↓reduceIte, String.reduceEq]
  split_ifs with h1 h2 <;> linarith

theorem call_sub_put (c S_0 u d E : ℝ) (N : ℕ) :
    ∀ m j, m + j ≤ N →
      euroVAux c S_0 u d E "call" N m j - euroVAux c S_0 u d E "put" N m j =
        (c * 0.5 * (u + d)) ^ m * (S_0 * u ^ j * d ^ (N - m - j)) - c ^ m * E := by
  intro m
  induction m with
  | zero =>
    intro j _
    simp only [euroVAux, pow_zero, one_mul, Nat.sub_zero, payoffFn_call_sub_put]
  | succ m ih =>
    intro j hj
    have h1 := ih j (by omega)
    have h2 := ih (j + 1) (by omega)
    have he : N - m - j = (N - (m + 1) - j) + 1 := by omega
    have he2 : N - m - (j + 1) = N - (m + 1) - j := by omega
    rw [he] at h1
    rw [he2] at h2
    simp only [euroVAux]
    linear_combination (c * 0.5) * h1 + (c * 0.5) * h2

theorem amerVAux_nonneg (c S_0 u d E : ℝ) (k : String) (N : ℕ) :
    ∀ m j, 0 ≤ amerVAux c S_0 u d E k N m j := by
  intro m
  induction m with
  | zero => intro j; exact payoffFn_nonneg _ _ _
  | succ m _ =>
    intro j
    exact le_trans (payoffFn_nonneg _ _ _) (le_max_right _ _)

end

end Binomial

namespace BlackScholes

/-- Python list indexing: a negative index counts from the end
(`l[-1]` is the last element).  An out-of-range access raises in Python;
the claims only involve grids of sufficient length, where every access is
in range, so the default 0 is never consulted there. -/
def pyGet (l : List ℚ) (i : ℤ) : ℚ :=
  if i < 0 then l.getD (l.length - (-i).toNat) 0 else l.getD i.toNat 0

/-- Embedding of `find_dVdS(V_list, S_list)` (BlackScholes.py, lines
85-102): forward differences `(V[i+1]-V[i])/(S[i+1]-S[i])` for
`i ∈ [0, len-2]`, then one linearly-extrapolated final value appended
(note the source indexes `S_list` by the length of the derivative list
when computing the extrapolation gradient). -/
def find_dVdS (V_list S_list : List ℚ) : List ℚ :=
  let dVdS_list := (List.range (V_list.length - 1)).map fun i =>
    (pyGet V_list ((i : ℤ) + 1) - pyGet V_list i) /
      (pyGet S_list ((i : ℤ) + 1) - pyGet S_list i)
  let list_len : ℤ := dVdS_list.length
  let deltadVdS := pyGet dVdS_list (list_len - 1) - pyGet dVdS_list (list_len - 2)
  let deltaS := pyGet S_list (list_len - 2) - pyGet S_list (list_len - 3)
  let gradient := deltadVdS / deltaS
  let final_value := pyGet dVdS_list (list_len - 1) +
    (pyGet S_list (-1) - pyGet S_list (-2)) * gradient
  dVdS_list ++ [final_value]

/-- Embedding of `find_d2VdS2(V_list, S_list)` (BlackScholes.py, lines
104-131): second differences `(V[i-1]-2V[i]+V[i+1])` divided by the
spacing `S[i+1]-S[i]` (not its square) for `i ∈ [1, len-2]`, then a
linearly-extrapolated final value appended and an initial value inserted
at the front (the initial extrapolation reads the list after the final
value was appended, as the source does). -/
def find_d2VdS2 (V_list S_list : List ℚ) : List ℚ :=
  let d2VdS2_list := (List.range (V_list.length - 2)).map fun i0 =>
    let i : ℤ := (i0 : ℤ) + 1
    (pyGet V_list (i - 1) - 2 * pyGet V_list i + pyGet V_list (i + 1)) /
      (pyGet S_list (i + 1) - pyGet S_list i)
  let list_len : ℤ := d2VdS2_list.length
  let deltad2VdS2 := pyGet d2VdS2_list (list_len - 1) - pyGet d2VdS2_list (list_len - 2)
  let deltaS := pyGet S_list (list_len - 2) - pyGet S_list (list_len - 3)
  let gradient := deltad2VdS2 / deltaS
  let final_value := pyGet d2VdS2_list (list_len - 1) +
    (pyGet S_list (-1) - pyGet S_list (-2)) * gradient
  let with_final := d2VdS2_list ++ [final_value]
  let gradient0 := (pyGet with_final 1 - pyGet with_final 0) /
    (pyGet S_list 1 - pyGet S_list 0)
  let initial_value := pyGet with_final 0 - (pyGet S_list 1 - pyGet S_list 0) * gradient0
  initial_value :: with_final

/-- Embedding of `find_dVdt(V_list, S_list, r, sigma)` (BlackScholes.py,
lines 142-159): `dVdt[i] = r*V[i] - r*S[i]*dVdS[i] -
0.5*sigma*sigma*S[i]*d2VdS2[i]` — note the single factor of `S[i]` in the
last term, as written in the source. -/
def find_dVdt (V_list S_list : List ℚ) (r sigma : ℚ) : List ℚ :=
  let dVdS_list := find_dVdS V_list S_list
  let d2VdS2_list := find_d2VdS2 V_list S_list
  (List.range V_list.length).map fun i =>
    r * pyGet V_list i - r * pyGet S_list i * pyGet dVdS_list i -
      0.5 * sigma * sigma * pyGet S_list i * pyGet d2VdS2_list i

/-- The time derivative claim C4 describes, at an interior grid index:
central finite differences, the second difference divided by the squared
spacing, and the `S^2` factor of the Black-Scholes operator.  This
definition follows the claim's words, for comparison with `find_dVdt`,
which embeds the code. -/
def dVdt_claimed (V_list S_list : List ℚ) (r sigma : ℚ) (i : ℤ) : ℚ :=
  let dVdS := (pyGet V_list (i + 1) - pyGet V_list (i - 1)) /
    (pyGet S_list (i + 1) - pyGet S_list (i - 1))
  let d2VdS2 := (pyGet V_list (i - 1) - 2 * pyGet V_list i + pyGet V_list (i + 1)) /
    (pyGet S_list (i + 1) - pyGet S_list i) ^ 2
  r * pyGet V_list i - r * pyGet S_list i * dVdS -
    0.5 * sigma ^ 2 * pyGet S_list i ^ 2 * d2VdS2

theorem pyGet_zero (l : List ℚ) : pyGet l 0 = l.getD 0 0 := rfl

theorem pyGet_one (l : List ℚ) : pyGet l 1 = l.getD 1 0 := rfl

theorem pyGet_two (l : List ℚ) : pyGet l 2 = l.getD 2 0 := rfl

theorem pyGet_three (l : List ℚ) : pyGet l 3 = l.getD 3 0 := rfl

theorem pyGet_neg_one (l : List ℚ) : pyGet l (-1) = l.getD (l.length - 1) 0 := rfl

theorem pyGet_neg_two (l : List ℚ) : pyGet l (-2) = l.getD (l.length - 2) 0 := rfl

end BlackScholes

namespace Binomial

noncomputable section

/-- C1: for every S0 > 0, r, sigma > 0, T > 0, N ≥ 1 and recognized
contract kind, `find_euro_option_value` returns the root of the
risk-neutral backward induction over the price tree: with `(dt, u, d)`
from `find_dt_u_d` and `discount = exp(-r*dt)`, level `N` of the value
lattice holds the terminal payoffs `payoff(S0*u^j*d^(N-j))`, every
earlier node satisfies `V i j = discount*0.5*(V (i+1) j + V (i+1) (j+1))`,
and the returned scalar is the single level-0 value `V 0 0`. -/
theorem euro_is_backward_induction (S_0 r sigma T E : ℝ) (N : ℕ) (k : String)
    (hS : 0 < S_0) (hsig : 0 < sigma) (hT : 0 < T) (hN : 1 ≤ N)
    (hk : recognized k) :
    ∃ u d, find_dt_u_d r sigma T N = some (T / N, u, d) ∧
      (∀ j, euroV (Real.exp (-(r * (T / N)))) S_0 u d E k N N j =
        payoffFn (S_0 * u ^ j * d ^ (N - j)) E k) ∧
      (∀ i j, i < N →
        euroV (Real.exp (-(r * (T / N)))) S_0 u d E k N i j =
          Real.exp (-(r * (T / N))) * 0.5 *
            (euroV (Real.exp (-(r * (T / N)))) S_0 u d E k N (i + 1) j +
              euroV (Real.exp (-(r * (T / N)))) S_0 u d E k N (i + 1) (j + 1))) ∧
      find_euro_option_value S_0 r sigma T N E k =
        some (euroV (Real.exp (-(r * (T / N)))) S_0 u d E k N 0 0) := by
  refine ⟨_, _, find_dt_u_d_eq r sigma T N (by omega), ?_, ?_, ?_⟩
  · intro j
    unfold euroV
    rw [Nat.sub_self]
    simp only [euroVAux]
  · intro i j hij
    unfold euroV
    have hni : N - i = (N - (i + 1)) + 1 := by omega
    rw [hni]
    rfl
  · rw [find_euro_eq S_0 r sigma T E (T / N) _ _ N k hk
      (find_dt_u_d_eq r sigma T N (by omega))]
    rfl

theorem euro_is_backward_induction_witness :
    ∃ u d, find_dt_u_d 0 1 1 1 = some ((1 : ℝ) / ((1 : ℕ) : ℝ), u, d) ∧
      (∀ j, euroV (Real.exp (-(0 * ((1 : ℝ) / ((1 : ℕ) : ℝ))))) 100 u d 100 "call" 1 1 j =
        payoffFn (100 * u ^ j * d ^ (1 - j)) 100 "call") ∧
      (∀ i j, i < 1 →
        euroV (Real.exp (-(0 * ((1 : ℝ) / ((1 : ℕ) : ℝ))))) 100 u d 100 "call" 1 i j =
          Real.exp (-(0 * ((1 : ℝ) / ((1 : ℕ) : ℝ)))) * 0.5 *
            (euroV (Real.exp (-(0 * ((1 : ℝ) / ((1 : ℕ) : ℝ))))) 100 u d 100 "call" 1 (i + 1) j +
              euroV (Real.exp (-(0 * ((1 : ℝ) / ((1 : ℕ) : ℝ))))) 100 u d 100 "call" 1
                (i + 1) (j + 1))) ∧
      find_euro_option_value 100 0 1 1 1 100 "call" =
        some (euroV (Real.exp (-(0 * ((1 : ℝ) / ((1 : ℕ) : ℝ))))) 100 u d 100 "call" 1 0 0) :=
  euro_is_backward_induction 100 0 1 1 100 1 "call" (by norm_num) (by norm_num)
    (by norm_num) (le_refl 1) (Or.inl rfl)

/-- C2: for every N ≥ 1 and recognized contract kind,
`find_amer_option_value` computes each non-terminal node value as
`max(hold_value, exercise_value)` with
`hold_value = exp(-r*dt)*0.5*(V[i+1][j] + V[i+1][j+1])` and
`exercise_value = payoff(tree[i][j])`, and returns alongside the root
value a Boolean flag equal to `exercise_value > hold_value` evaluated at
the root node (level 0, index 0). -/
theorem amer_is_backward_induction (S_0 r sigma T E : ℝ) (N : ℕ) (k : String)
    (hN : 1 ≤ N) (hk : recognized k) :
    ∃ u d, find_dt_u_d r sigma T N = some (T / N, u, d) ∧
      (∀ i j, i < N →
        amerV (Real.exp (-(r * (T / N)))) S_0 u d E k N i j =
          max (Real.exp (-(r * (T / N))) * 0.5 *
              (amerV (Real.exp (-(r * (T / N)))) S_0 u d E k N (i + 1) j +
                amerV (Real.exp (-(r * (T / N)))) S_0 u d E k N (i + 1) (j + 1)))
            (payoffFn (S_0 * u ^ j * d ^ (i - j)) E k)) ∧
      find_amer_option_value S_0 r sigma T N E k =
        some (amerV (Real.exp (-(r * (T / N)))) S_0 u d E k N 0 0,
          decide (payoffFn S_0 E k >
            Real.exp (-(r * (T / N))) * 0.5 *
              (amerV (Real.exp (-(r * (T / N)))) S_0 u d E k N 1 0 +
                amerV (Real.exp (-(r * (T / N)))) S_0 u d E k N 1 1))) := by
  refine ⟨_, _, find_dt_u_d_eq r sigma T N (by omega), ?_, ?_⟩
  · intro i j hij
    unfold amerV
    have hni : N - i = (N - (i + 1)) + 1 := by omega
    rw [hni]
    simp only [amerVAux]
    have he : N - ((N - (i + 1)) + 1) - j = i - j := by omega
    rw [he]
  · rw [find_amer_eq S_0 r sigma T E (T / N) _ _ N k (by omega) hk
      (find_dt_u_d_eq r sigma T N (by omega))]
    have hS0 : S_0 * (Real.exp (r * (T / N)) *
        (1 + Real.sqrt (Real.exp (sigma ^ 2 * (T / N)) - 1))) ^ (0 : ℕ) *
        (Real.exp (r * (T / N)) *
          (1 - Real.sqrt (Real.exp (sigma ^ 2 * (T / N)) - 1))) ^ (0 : ℕ) = S_0 := by
      ring
    simp only [hS0, amerV, Nat.sub_zero]

theorem amer_is_backward_induction_witness :
    ∃ u d, find_dt_u_d 0 1 1 1 = some ((1 : ℝ) / ((1 : ℕ) : ℝ), u, d) ∧
      (∀ i j, i < 1 →
        amerV (Real.exp (-(0 * ((1 : ℝ) / ((1 : ℕ) : ℝ))))) 100 u d 100 "call" 1 i j =
          max (Real.exp (-(0 * ((1 : ℝ) / ((1 : ℕ) : ℝ)))) * 0.5 *
              (amerV (Real.exp (-(0 * ((1 : ℝ) / ((1 : ℕ) : ℝ))))) 100 u d 100 "call" 1 (i + 1) j +
                amerV (Real.exp (-(0 * ((1 : ℝ) / ((1 : ℕ) : ℝ))))) 100 u d 100 "call" 1
                  (i + 1) (j + 1)))
            (payoffFn (100 * u ^ j * d ^ (i - j)) 100 "call")) ∧
      find_amer_option_value 100 0 1 1 1 100 "call" =
        some (amerV (Real.exp (-(0 * ((1 : ℝ) / ((1 : ℕ) : ℝ))))) 100 u d 100 "call" 1 0 0,
          decide (payoffFn 100 100 "call" >
            Real.exp (-(0 * ((1 : ℝ) / ((1 : ℕ) : ℝ)))) * 0.5 *
              (amerV (Real.exp (-(0 * ((1 : ℝ) / ((1 : ℕ) : ℝ))))) 100 u d 100 "call" 1 1 0 +
                amerV (Real.exp (-(0 * ((1 : ℝ) / ((1 : ℕ) : ℝ))))) 100 u d 100 "call" 1 1 1))) :=
  amer_is_backward_induction 100 0 1 1 100 1 "call" (le_refl 1) (Or.inl rfl)

/-- C3: for identical inputs (S0 > 0, r, sigma > 0, T > 0, N ≥ 1,
recognized kind), the American option value is greater than or equal to
the European option value, and the same dominance holds at every
co-indexed node of the two backward inductions. -/
theorem amer_dominates_euro (S_0 r sigma T E : ℝ) (N : ℕ) (k : String)
    (hS : 0 < S_0) (hsig : 0 < sigma) (hT : 0 < T) (hN : 1 ≤ N)
    (hk : recognized k) :
    ∃ u d V_E V_A fl,
      find_dt_u_d r sigma T N = some (T / N, u, d) ∧
      find_euro_option_value S_0 r sigma T N E k = some V_E ∧
      find_amer_option_value S_0 r sigma T N E k = some (V_A, fl) ∧
      V_E ≤ V_A ∧
      (∀ i j, euroV (Real.exp (-(r * (T / N)))) S_0 u d E k N i j ≤
        amerV (Real.exp (-(r * (T / N)))) S_0 u d E k N i j) := by
  have hc : (0 : ℝ) ≤ Real.exp (-(r * (T / N))) := (Real.exp_pos _).le
  exact ⟨_, _, _, _, _,
    find_dt_u_d_eq r sigma T N (by omega),
    find_euro_eq S_0 r sigma T E (T / N) _ _ N k hk
      (find_dt_u_d_eq r sigma T N (by omega)),
    find_amer_eq S_0 r sigma T E (T / N) _ _ N k (by omega) hk
      (find_dt_u_d_eq r sigma T N (by omega)),
    euroVAux_le_amerVAux _ S_0 _ _ E k N hc N 0,
    fun i j => euroVAux_le_amerVAux _ S_0 _ _ E k N hc (N - i) j⟩

theorem amer_dominates_euro_witness :
    ∃ u d V_E V_A fl,
      find_dt_u_d 0 1 1 1 = some ((1 : ℝ) / ((1 : ℕ) : ℝ), u, d) ∧
      find_euro_option_value 100 0 1 1 1 100 "call" = some V_E ∧
      find_amer_option_value 100 0 1 1 1 100 "call" = some (V_A, fl) ∧
      V_E ≤ V_A ∧
      (∀ i j, euroV (Real.exp (-(0 * ((1 : ℝ) / ((1 : ℕ) : ℝ))))) 100 u d 100 "call" 1 i j ≤
        amerV (Real.exp (-(0 * ((1 : ℝ) / ((1 : ℕ) : ℝ))))) 100 u d 100 "call" 1 i j) :=
  amer_dominates_euro 100 0 1 1 100 1 "call" (by norm_num) (by norm_num) (by norm_num)
    (le_refl 1) (Or.inl rfl)

/-- C5: for matched European call and put with the same
(S0, E, r, sigma, T, N ≥ 1), the lattice prices satisfy put-call parity;
in this p = 0.5 scheme the identity `call - put = S0 - E*exp(-r*T)` holds
exactly, for every N (so in particular within any discretization error,
and convergent as N tends to infinity). -/
theorem put_call_parity (S_0 r sigma T E : ℝ) (N : ℕ) (hN : 1 ≤ N) :
    ∃ C P, find_euro_option_value S_0 r sigma T N E "call" = some C ∧
      find_euro_option_value S_0 r sigma T N E "put" = some P ∧
      C - P = S_0 - E * Real.exp (-(r * T)) := by
  have hNne : N ≠ 0 := by omega
  have hd := find_dt_u_d_eq r sigma T N hNne
  refine ⟨_, _, find_euro_eq S_0 r sigma T E (T / N) _ _ N "call" (Or.inl rfl) hd,
    find_euro_eq S_0 r sigma T E (T / N) _ _ N "put" (Or.inr (Or.inl rfl)) hd, ?_⟩
  have hpar := call_sub_put (Real.exp (-(r * (T / N)))) S_0
    (Real.exp (r * (T / N)) * (1 + Real.sqrt (Real.exp (sigma ^ 2 * (T / N)) - 1)))
    (Real.exp (r * (T / N)) * (1 - Real.sqrt (Real.exp (sigma ^ 2 * (T / N)) - 1)))
    E N N 0 (by omega)
  have hone : Real.exp (-(r * (T / N))) * 0.5 *
      (Real.exp (r * (T / N)) * (1 + Real.sqrt (Real.exp (sigma ^ 2 * (T / N)) - 1)) +
        Real.exp (r * (T / N)) * (1 - Real.sqrt (Real.exp (sigma ^ 2 * (T / N)) - 1))) = 1 := by
    have hmul : Real.exp (-(r * (T / N))) * Real.exp (r * (T / N)) = 1 := by
      rw [← Real.exp_add]
      simp
    linear_combination hmul
  have hcN : Real.exp (-(r * (T / N))) ^ N = Real.exp (-(r * T)) := by
    rw [← Real.exp_nat_mul]
    congr 1
    have hcast : (N : ℝ) ≠ 0 := Nat.cast_ne_zero.mpr hNne
    field_simp
    ring
  rw [hpar, hone, one_pow, hcN]
  simp only [Nat.sub_self, Nat.zero_sub, pow_zero, mul_one, one_mul]
  ring

theorem put_call_parity_witness :
    ∃ C P, find_euro_option_value 100 0 1 1 1 100 "call" = some C ∧
      find_euro_option_value 100 0 1 1 1 100 "put" = some P ∧
      C - P = 100 - 100 * Real.exp (-(0 * 1)) :=
  put_call_parity 100 0 1 1 100 1 (le_refl 1)

/-- C6 (amended): for sigma > 0, T > 0 (strictly; at T = 0 the bound
degenerates to equality, see the counterexample) and N ≥ 1, the factors
returned by `find_dt_u_d` satisfy the strict no-arbitrage bound
`d < exp(r*T/N) < u`. -/
theorem no_arbitrage_strict (r sigma T : ℝ) (N : ℕ)
    (hsig : 0 < sigma) (hT : 0 < T) (hN : 1 ≤ N) :
    ∃ u d, find_dt_u_d r sigma T N = some (T / N, u, d) ∧
      d < Real.exp (r * (T / N)) ∧ Real.exp (r * (T / N)) < u := by
  refine ⟨_, _, find_dt_u_d_eq r sigma T N (by omega), ?_, ?_⟩
  all_goals
    have hNpos : (0 : ℝ) < N := by
      have h0 : (0 : ℕ) < N := by omega
      exact_mod_cast h0
    have hdt : 0 < T / (N : ℝ) := div_pos hT hNpos
    have h1 : 0 < sigma ^ 2 * (T / N) := by positivity
    have h2 : Real.exp 0 < Real.exp (sigma ^ 2 * (T / N)) := Real.exp_lt_exp.mpr h1
    rw [Real.exp_zero] at h2
    have hs : 0 < Real.sqrt (Real.exp (sigma ^ 2 * (T / N)) - 1) :=
      Real.sqrt_pos.mpr (by linarith)
    have hB : 0 < Real.exp (r * (T / N)) := Real.exp_pos _
    nlinarith [mul_pos hB hs]

theorem no_arbitrage_strict_witness :
    ∃ u d, find_dt_u_d 0 1 1 1 = some ((1 : ℝ) / ((1 : ℕ) : ℝ), u, d) ∧
      d < Real.exp (0 * ((1 : ℝ) / ((1 : ℕ) : ℝ))) ∧
      Real.exp (0 * ((1 : ℝ) / ((1 : ℕ) : ℝ))) < u :=
  no_arbitrage_strict 0 1 1 1 (by norm_num) (by norm_num) (le_refl 1)

/-- C6 (counterexample): at sigma = 1 > 0, T = 0, N = 1 — parameters the
claim admits, since it only requires T ≥ 0 — `find_dt_u_d` returns
u = d = 1 and `exp(r*T/N) = 1`, so the strict bound `d < exp(r*T/N)`
fails. -/
theorem no_arbitrage_fails_at_T_zero :
    find_dt_u_d 0 1 0 1 = some (0, 1, 1) ∧
    ¬ ((1 : ℝ) < Real.exp (0 * ((0 : ℝ) / 1))) := by
  constructor
  · simp [find_dt_u_d]
  · simp

/-- C7 (amended): for T = 0 with N ≥ 1 every pricing call short-circuits
to the payoff evaluated immediately at S0 (and the American exercise flag
is false); but for N = 0 both pricers raise ZeroDivisionError in
`find_dt_u_d` (modelled as `none`) instead of returning the payoff. -/
theorem degenerate_inputs (S_0 r sigma E : ℝ) (N : ℕ) (k : String)
    (hN : 1 ≤ N) (hk : recognized k) :
    find_euro_option_value S_0 r sigma 0 N E k = some (payoffFn S_0 E k) ∧
    find_amer_option_value S_0 r sigma 0 N E k = some (payoffFn S_0 E k, false) ∧
    (∀ T, find_euro_option_value S_0 r sigma T 0 E k = none) ∧
    (∀ T, find_amer_option_value S_0 r sigma T 0 E k = none) := by
  have hNne : N ≠ 0 := by omega
  refine ⟨?_, ?_, ?_, ?_⟩
  · rw [find_euro_eq S_0 r sigma 0 E 0 1 1 N k hk (find_dt_u_d_T_zero r sigma N hNne)]
    simp only [mul_zero, neg_zero, Real.exp_zero, euroVAux_const]
  · rw [find_amer_eq S_0 r sigma 0 E 0 1 1 N k hNne hk
      (find_dt_u_d_T_zero r sigma N hNne)]
    simp only [mul_zero, neg_zero, Real.exp_zero, amerVAux_const, one_pow, mul_one]
    have hh : (1 : ℝ) * 0.5 * (payoffFn S_0 E k + payoffFn S_0 E k) = payoffFn S_0 E k := by
      ring
    rw [hh, decide_eq_false (lt_irrefl _)]
  · intro T
    simp [find_euro_option_value, find_dt_u_d]
  · intro T
    simp [find_amer_option_value, find_dt_u_d]

theorem degenerate_inputs_witness :
    find_euro_option_value 100 0 1 0 1 100 "call" = some (payoffFn 100 100 "call") ∧
    find_amer_option_value 100 0 1 0 1 100 "call" = some (payoffFn 100 100 "call", false) ∧
    (∀ T, find_euro_option_value 100 0 1 T 0 100 "call" = none) ∧
    (∀ T, find_amer_option_value 100 0 1 T 0 100 "call" = none) :=
  degenerate_inputs 100 0 1 100 1 "call" (le_refl 1) (Or.inl rfl)

/-- C7 (counterexample): with N = 0 the claim demands the immediate
payoff `payoff(S0) = some 0`, but the pricing call divides by zero in
`find_dt_u_d` (ZeroDivisionError, modelled `none`). -/
theorem n_zero_raises :
    find_euro_option_value 100 0 1 1 0 100 "call" = none ∧
    payoff 100 100 "call" = some 0 := by
  constructor
  · simp [find_euro_option_value, find_dt_u_d]
  · norm_num [payoff]

/-- C8 (amended): the pricing core performs no input validation.  An
unrecognized contract kind is not rejected before computation begins: it
surfaces only when `payoff` returns no value during lattice evaluation
(the run fails there, modelled `none`).  And sigma ≤ 0 is not rejected at
all: pricing proceeds and returns a numeric value. -/
theorem no_input_validation (S_0 r sigma T E : ℝ) (N : ℕ) (k : String)
    (hN : 1 ≤ N) :
    (¬ recognized k → find_euro_option_value S_0 r sigma T N E k = none ∧
      find_amer_option_value S_0 r sigma T N E k = none) ∧
    (recognized k → sigma ≤ 0 →
      ∃ v, find_euro_option_value S_0 r sigma T N E k = some v) := by
  constructor
  · intro hk
    exact ⟨find_euro_unrecognized hk S_0 r sigma T E N,
      find_amer_unrecognized hk S_0 r sigma T E N⟩
  · intro hk _
    exact ⟨_, find_euro_eq S_0 r sigma T E (T / N) _ _ N k hk
      (find_dt_u_d_eq r sigma T N (by omega))⟩

theorem no_input_validation_witness :
    (¬ recognized "swaption" →
      find_euro_option_value 100 0 0 1 1 100 "swaption" = none ∧
      find_amer_option_value 100 0 0 1 1 100 "swaption" = none) ∧
    (recognized "swaption" → (0 : ℝ) ≤ 0 →
      ∃ v, find_euro_option_value 100 0 0 1 1 100 "swaption" = some v) :=
  no_input_validation 100 0 0 1 100 1 "swaption" (le_refl 1)

/-- C8 (counterexample): with sigma = 0 ≤ 0 the claim demands rejection
as an InvalidParameter error before computation, but
`find_euro_option_value` silently computes and returns the numeric price
0. -/
theorem sigma_zero_not_rejected :
    find_euro_option_value 100 0 0 1 1 100 "call" = some 0 := by
  rw [find_euro_eq 100 0 0 1 100 1 1 1 1 "call" (Or.inl rfl) (by simp [find_dt_u_d])]
  norm_num [euroVAux_const, payoffFn]

/-- C9: `payoff` equals `max(S-E, 0)` for a call, `max(E-S, 0)` for a
put, 10 if S > E else 0 for a cash-or-nothing call, 10 if E > S else 0
for a cash-or-nothing put, and `payoff(E, E, kind) = 0` for all four
kinds (strict inequality at S == E). -/
theorem payoff_values (S E : ℝ) :
    payoff S E "call" = some (max (S - E) 0) ∧
    payoff S E "put" = some (max (E - S) 0) ∧
    payoff S E "cash_or_nothing_call" = some (if S > E then 10 else 0) ∧
    payoff S E "cash_or_nothing_put" = some (if E > S then 10 else 0) ∧
    (∀ k, recognized k → payoff E E k = some 0) := by
  refine ⟨?_, ?_, ?_, ?_, ?_⟩
  · simp only [payoff, String.reduceEq, ↓reduceIte]
    congr 1
    rcases le_or_lt (S - E) 0 with h | h
    · rw [if_neg (not_lt.mpr h), max_eq_right h]
    · rw [if_pos h, max_eq_left h.le]
  · simp only [payoff, String.reduceEq, ↓reduceIte]
    congr 1
    rcases le_or_lt (E - S) 0 with h | h
    · rw [if_neg (not_lt.mpr h), max_eq_right h]
    · rw [if_pos h, max_eq_left h.le]
  · simp only [payoff, String.reduceEq, ↓reduceIte, sub_pos, gt_iff_lt]
  · simp only [payoff, String.reduceEq, ↓reduceIte, sub_pos, gt_iff_lt]
  · intro k hk
    rcases hk with h | h | h | h <;> subst h <;> norm_num [payoff]

theorem payoff_values_witness : payoff (3 : ℝ) 3 "put" = some 0 :=
  (payoff_values 3 3).2.2.2.2 "put" (Or.inr (Or.inl rfl))

/-- C10: for every recognized contract kind and sigma > 0, T > 0, N ≥ 1,
the payoff function is nonnegative, every intermediate node value of both
the European and the American backward induction is nonnegative, and both
returned option prices are nonnegative. -/
theorem prices_nonneg (S_0 r sigma T E : ℝ) (N : ℕ) (k : String)
    (hsig : 0 < sigma) (hT : 0 < T) (hN : 1 ≤ N) (hk : recognized k) :
    (∀ S, 0 ≤ payoffFn S E k) ∧
    ∃ u d V_E V_A fl,
      find_dt_u_d r sigma T N = some (T / N, u, d) ∧
      (∀ m j, 0 ≤ euroVAux (Real.exp (-(r * (T / N)))) S_0 u d E k N m j) ∧
      (∀ m j, 0 ≤ amerVAux (Real.exp (-(r * (T / N)))) S_0 u d E k N m j) ∧
      find_euro_option_value S_0 r sigma T N E k = some V_E ∧ 0 ≤ V_E ∧
      find_amer_option_value S_0 r sigma T N E k = some (V_A, fl) ∧ 0 ≤ V_A := by
  have hc : (0 : ℝ) ≤ Real.exp (-(r * (T / N))) := (Real.exp_pos _).le
  exact ⟨fun S => payoffFn_nonneg S E k, _, _, _, _, _,
    find_dt_u_d_eq r sigma T N (by omega),
    euroVAux_nonneg _ S_0 _ _ E k N hc,
    amerVAux_nonneg _ S_0 _ _ E k N,
    find_euro_eq S_0 r sigma T E (T / N) _ _ N k hk
      (find_dt_u_d_eq r sigma T N (by omega)),
    euroVAux_nonneg _ S_0 _ _ E k N hc N 0,
    find_amer_eq S_0 r sigma T E (T / N) _ _ N k (by omega) hk
      (find_dt_u_d_eq r sigma T N (by omega)),
    amerVAux_nonneg _ S_0 _ _ E k N N 0⟩

theorem prices_nonneg_witness :
    (∀ S, 0 ≤ payoffFn S 100 "call") ∧
    ∃ u d V_E V_A fl,
      find_dt_u_d 0 1 1 1 = some ((1 : ℝ) / ((1 : ℕ) : ℝ), u, d) ∧
      (∀ m j, 0 ≤ euroVAux (Real.exp (-(0 * ((1 : ℝ) / ((1 : ℕ) : ℝ)))))
        100 u d 100 "call" 1 m j) ∧
      (∀ m j, 0 ≤ amerVAux (Real.exp (-(0 * ((1 : ℝ) / ((1 : ℕ) : ℝ)))))
        100 u d 100 "call" 1 m j) ∧
      find_euro_option_value 100 0 1 1 1 100 "call" = some V_E ∧ 0 ≤ V_E ∧
      find_amer_option_value 100 0 1 1 1 100 "call" = some (V_A, fl) ∧ 0 ≤ V_A :=
  prices_nonneg 100 0 1 1 100 1 "call" (by norm_num) (by norm_num) (le_refl 1)
    (Or.inl rfl)

end

end Binomial

namespace BlackScholes

/-- C4 (code bug): on the grid S = [1, 2, 3, 4] with V = S², r = 0 and
sigma = 1, the source's `find_dVdt` produces -2 at interior index 1,
whereas the formula the claim (and the spec, and the Black-Scholes
equation) states — `r*V - r*S*dV/dS - 0.5*sigma^2*S^2*d2V/dS2` with
central differences and the second difference divided by the squared
spacing — gives -4 there: the code multiplies the diffusion term by `S`
instead of `S^2` and divides the second difference by the spacing
instead of its square. -/
theorem find_dVdt_deviates_from_claim :
    (find_dVdt [1, 4, 9, 16] [1, 2, 3, 4] 0 1).getD 1 0 = -2 ∧
    dVdt_claimed [1, 4, 9, 16] [1, 2, 3, 4] 0 1 1 = -4 ∧
    ((-2 : ℚ) ≠ -4) := by
  refine ⟨?_, ?_, by norm_num⟩
  · have e1 : find_dVdS [1, 4, 9, 16] [1, 2, 3, 4] = [3, 5, 7, 9] := by
      norm_num [find_dVdS, List.range_succ, pyGet_zero, pyGet_one, pyGet_two,
        pyGet_three, pyGet_neg_one, pyGet_neg_two]
    have e2 : find_d2VdS2 [1, 4, 9, 16] [1, 2, 3, 4] = [2, 2, 2, 2] := by
      norm_num [find_d2VdS2, List.range_succ, pyGet_zero, pyGet_one, pyGet_two,
        pyGet_three, pyGet_neg_one, pyGet_neg_two]
    rw [find_dVdt, e1, e2]
    norm_num [List.range_succ, pyGet_zero, pyGet_one, pyGet_two, pyGet_three]
  · rw [dVdt_claimed]
    norm_num [pyGet_zero, pyGet_one, pyGet_two]

end BlackScholes
